import Mathlib

/-!
Verification development for the PyEED/aligner sequence-alignment engine.

Sequences are byte strings, modelled as `List Nat`; scoring functions
(`MatcherFn` in the Rust source) are `Nat → Nat → Int`.  The global
affine-gap aligner and the k-mer match search live in the external
`bio` crate, so they are modelled from the specification (sections 4.1
and 4.2); everything else is transcribed from `src/align.rs` and
`src/main.rs`.
-/

namespace Aligner

/-- Identity scoring (match = 1, mismatch = -1), from `Matcher::score`
in `src/main.rs`. -/
def idMatcher : Nat → Nat → Int := fun a b => if a = b then 1 else -1

/-- Gap-open penalty passed to the aligner in `src/align.rs` (`align`). -/
def gapOpen : Int := -10

/-- Gap-extend penalty passed to the aligner in `src/align.rs` (`align`). -/
def gapExtend : Int := -1

/-- Modelled from the spec: the three-state affine-gap dynamic program of
section 4.2 (the `bio` crate's `Aligner::global`, which is not part of this
repository's sources).  The cell at `(i, j)` holds `(M, Ix, Iy)`: the best
score of an alignment of the first `i` symbols of `x` against the first
`j` symbols of `y` ending in a match/mismatch, a gap consuming `x`, or a
gap consuming `y`; `⊥` marks an unreachable state.  The first argument is
fuel bounding `i + j`, making the recursion structural. -/
def dpAux (x y : List Nat) (m : Nat → Nat → Int) :
    Nat → Nat → Nat → (WithBot Int × WithBot Int × WithBot Int)
  | _, 0, 0 => (((0 : Int) : WithBot Int), ⊥, ⊥)
  | _, i + 1, 0 => (⊥, ((gapOpen + gapExtend * (i : Int) : Int) : WithBot Int), ⊥)
  | _, 0, j + 1 => (⊥, ⊥, ((gapOpen + gapExtend * (j : Int) : Int) : WithBot Int))
  | 0, _ + 1, _ + 1 => (⊥, ⊥, ⊥)
  | f + 1, i + 1, j + 1 =>
    let d := dpAux x y m f i j
    let u := dpAux x y m f i (j + 1)
    let l := dpAux x y m f (i + 1) j
    let sc : Int := m (x.getD i 0) (y.getD j 0)
    (max (max d.1 d.2.1) d.2.2 + ((sc : Int) : WithBot Int),
     max (u.1 + ((gapOpen : Int) : WithBot Int)) (u.2.1 + ((gapExtend : Int) : WithBot Int)),
     max (l.1 + ((gapOpen : Int) : WithBot Int)) (l.2.2 + ((gapExtend : Int) : WithBot Int)))

/-- Cell `(i, j)` of the alignment dynamic program. -/
def dp (x y : List Nat) (m : Nat → Nat → Int) (i j : Nat) :
    WithBot Int × WithBot Int × WithBot Int :=
  dpAux x y m (i + j) i j

/-- Best of the three states in a cell. -/
def maxCell (c : WithBot Int × WithBot Int × WithBot Int) : WithBot Int :=
  max (max c.1 c.2.1) c.2.2

/-- Optimal global alignment score before removing the unreachable marker. -/
def alignB (seq1 seq2 : List Nat) (matcher : Nat → Nat → Int) : WithBot Int :=
  maxCell (dp seq1 seq2 matcher seq1.length seq2.length)

/-- Transcribes `align` from `src/align.rs`: the global alignment score with
gap-open -10 and gap-extend -1, the dynamic program itself being modelled
from the spec (section 4.2). -/
def align (seq1 seq2 : List Nat) (matcher : Nat → Nat → Int) : Int :=
  (alignB seq1 seq2 matcher).unbot' 0

/-- Modelled from the spec: the total count of exact k-mer matches found by
the `bio` crate's `find_kmer_matches` (not part of this repository's
sources), per section 4.1: the number of position pairs `(i, j)` such that
the length-`k` window of `q` at `i` equals the length-`k` window of `s` at
`j`.  When `k` exceeds a sequence length the window range is empty
(saturating subtraction), and `k = 0` makes every position pair match. -/
def countKmerMatches (q s : List Nat) (k : Nat) : Nat :=
  ∑ i ∈ Finset.range (q.length + 1 - k), ∑ j ∈ Finset.range (s.length + 1 - k),
    if (q.drop i).take k = (s.drop j).take k then 1 else 0

/-- Transcribes `worth_aligning` from `src/align.rs`: the shorter sequence
becomes the query (ties keep `seq2` as query), `k` is the truncation of
`len(query) * fraction` (the `f32` product modelled over `ℚ`, negative
products truncating to `0` like the Rust `as usize` cast), and the pair is
worth aligning iff at least `min_matches` k-mer matches are found. -/
def worth_aligning (seq1 seq2 : List Nat) (fraction : ℚ) (min_matches : Nat) : Bool :=
  let qs := if seq1.length < seq2.length then (seq1, seq2) else (seq2, seq1)
  let k := (⌊(qs.1.length : ℚ) * fraction⌋).toNat
  decide (min_matches ≤ countKmerMatches qs.1 qs.2 k)

/-- Transcribes `AlignmentResult` from `src/align.rs`. -/
structure AlignmentResult where
  query_id : String
  subject_id : String
  score : Option Int
  seq1_len : Nat
  seq2_len : Nat
  deriving DecidableEq

/-- Enumeration of all pairs `(keys[i], keys[j])` with `j ≤ i`, transcribing
the pair generation of `align_all_streaming` in `src/align.rs`
(`keys[..=i]` for each enumerated index `i`). -/
def pairsOf (keys : List String) : List (String × String) :=
  (List.range keys.length).flatMap fun i =>
    (keys.take (i + 1)).map fun s => (keys.getD i "", s)

/-- Sequence stored under a key of the input map. -/
def seqOf (input : List (String × List Nat)) (k : String) : List Nat :=
  (input.lookup k).getD []

/-- Work done for one enumerated pair in `align_all_streaming`
(`src/align.rs`): a self-pair produces nothing; otherwise the optional
prefilter decides whether the aligner runs, and the produced result
carries both true sequence lengths. -/
def processPair (input : List (String × List Nat)) (matcher : Nat → Nat → Int)
    (fraction : Option ℚ) (min_matches : Nat) (p : String × String) :
    Option AlignmentResult :=
  if p.1 = p.2 then none
  else
    let query_seq := seqOf input p.1
    let subject_seq := seqOf input p.2
    let score : Option Int :=
      match fraction with
      | some f =>
        if worth_aligning query_seq subject_seq f min_matches then
          some (align query_seq subject_seq matcher)
        else none
      | none => some (align query_seq subject_seq matcher)
    some { query_id := p.1, subject_id := p.2, score := score,
           seq1_len := query_seq.length, seq2_len := subject_seq.length }

/-- Transcribes `align_all_streaming` from `src/align.rs` as the collection
of results pushed into the channel (the code guarantees no particular
arrival order, so the enumeration order serves as canonical
representative).  The `num_threads` argument only sizes the thread pool in
the source and does not influence which results are produced. -/
def align_all_streaming (input : List (String × List Nat))
    (matcher : Nat → Nat → Int) (fraction : Option ℚ) (min_matches : Nat)
    (num_threads : Option Nat) : List AlignmentResult :=
  (pairsOf (input.map Prod.fst)).filterMap
    (processPair input matcher fraction min_matches)

/-- Transcribes the per-result line written by `main` in `src/main.rs`:
five tab-separated fields, a missing score printed via `unwrap_or(-1)`. -/
def renderResult (r : AlignmentResult) : String :=
  r.query_id ++ "\t" ++ r.subject_id ++ "\t" ++ toString (r.score.getD (-1)) ++ "\t"
    ++ toString r.seq1_len ++ "\t" ++ toString r.seq2_len

/-- Delivery loop handing each produced result to the channel; the
`sender.send(result).expect(..)` call in `src/align.rs` makes a failed
handoff abort the whole run (modelled as `none`) rather than skip a pair. -/
def deliverAll (send : AlignmentResult → Option Unit) :
    List AlignmentResult → Option Unit
  | [] => some ()
  | r :: rs =>
    match send r with
    | none => none
    | some _ => deliverAll send rs

/-- Triangular pair enumeration in a shape convenient for induction:
permutation-equivalent to `pairsOf`. -/
def triPairs : List String → List (String × String)
  | [] => []
  | k :: ks => ((k, k) :: ks.map fun q => (q, k)) ++ triPairs ks

example : align [0] [1] idMatcher = -1 := by decide

example : align [7] [7] idMatcher = 1 := by decide

example : align [] [5, 6] idMatcher = -11 := by decide

example : align [1, 2, 3] [1, 2, 3] idMatcher = 3 := by decide

theorem dpAux_fuel (x y : List Nat) (m : Nat → Nat → Int) :
    ∀ f g i j, i + j ≤ f → i + j ≤ g → dpAux x y m f i j = dpAux x y m g i j := by
  intro f
  induction f with
  | zero =>
    intro g i j hf _
    have hi : i = 0 := by omega
    have hj : j = 0 := by omega
    subst hi; subst hj
    cases g <;> simp [dpAux]
  | succ f ih =>
    intro g i j hf hg
    cases i with
    | zero =>
      cases j with
      | zero => cases g <;> simp [dpAux]
      | succ j => cases g <;> simp [dpAux]
    | succ i =>
      cases j with
      | zero => cases g <;> simp [dpAux]
      | succ j =>
        cases g with
        | zero => omega
        | succ g =>
          simp only [dpAux]
          rw [ih g i j (by omega) (by omega), ih g i (j + 1) (by omega) (by omega),
            ih g (i + 1) j (by omega) (by omega)]

theorem dp_zero_zero (x y : List Nat) (m : Nat → Nat → Int) :
    dp x y m 0 0 = (((0 : Int) : WithBot Int), ⊥, ⊥) := by
  simp [dp, dpAux]

theorem dp_succ_zero (x y : List Nat) (m : Nat → Nat → Int) (i : Nat) :
    dp x y m (i + 1) 0 = (⊥, ((gapOpen + gapExtend * (i : Int) : Int) : WithBot Int), ⊥) := by
  simp [dp, dpAux]

theorem dp_zero_succ (x y : List Nat) (m : Nat → Nat → Int) (j : Nat) :
    dp x y m 0 (j + 1) = (⊥, ⊥, ((gapOpen + gapExtend * (j : Int) : Int) : WithBot Int)) := by
  simp [dp, dpAux]

theorem dp_succ_succ (x y : List Nat) (m : Nat → Nat → Int) (i j : Nat) :
    dp x y m (i + 1) (j + 1) =
      (max (max (dp x y m i j).1 (dp x y m i j).2.1) (dp x y m i j).2.2 +
        ((m (x.getD i 0) (y.getD j 0) : Int) : WithBot Int),
       max ((dp x y m i (j + 1)).1 + ((gapOpen : Int) : WithBot Int))
         ((dp x y m i (j + 1)).2.1 + ((gapExtend : Int) : WithBot Int)),
       max ((dp x y m (i + 1) j).1 + ((gapOpen : Int) : WithBot Int))
         ((dp x y m (i + 1) j).2.2 + ((gapExtend : Int) : WithBot Int))) := by
  have h : (i + 1) + (j + 1) = ((i + 1) + j) + 1 := rfl
  rw [dp, h]
  simp only [dpAux]
  rw [dpAux_fuel x y m ((i + 1) + j) (i + j) i j (by omega) (by omega),
    dpAux_fuel x y m ((i + 1) + j) (i + (j + 1)) i (j + 1) (by omega) (by omega),
    dpAux_fuel x y m ((i + 1) + j) ((i + 1) + j) (i + 1) j (by omega) (by omega)]
  rfl

theorem wb_add_le {a : WithBot Int} {v c g : Int} (ha : a ≤ (v : WithBot Int))
    (h : v + g ≤ c) : a + ((g : Int) : WithBot Int) ≤ ((c : Int) : WithBot Int) := by
  calc a + ((g : Int) : WithBot Int) ≤ (v : WithBot Int) + (g : WithBot Int) :=
        add_le_add_right ha _
    _ = ((v + g : Int) : WithBot Int) := (WithBot.coe_add v g).symm
    _ ≤ ((c : Int) : WithBot Int) := WithBot.coe_le_coe.mpr h

/-- Every state of every cell is bounded by the number of diagonal steps
available, provided each matched pair scores at most 1. -/
theorem dp_le (x y : List Nat) (m : Nat → Nat → Int) (hm : ∀ a b, m a b ≤ 1) :
    ∀ n i j, i + j ≤ n →
      (dp x y m i j).1 ≤ ((min (i : Int) (j : Int) : Int) : WithBot Int) ∧
      (dp x y m i j).2.1 ≤ ((min (i : Int) (j : Int) : Int) : WithBot Int) ∧
      (dp x y m i j).2.2 ≤ ((min (i : Int) (j : Int) : Int) : WithBot Int) := by
  intro n
  induction n with
  | zero =>
    intro i j h
    have hi : i = 0 := by omega
    have hj : j = 0 := by omega
    subst hi; subst hj
    rw [dp_zero_zero]
    refine ⟨?_, bot_le, bot_le⟩
    exact WithBot.coe_le_coe.mpr (by omega)
  | succ n ih =>
    intro i j h
    cases i with
    | zero =>
      cases j with
      | zero =>
        rw [dp_zero_zero]
        exact ⟨WithBot.coe_le_coe.mpr (by omega), bot_le, bot_le⟩
      | succ j =>
        rw [dp_zero_succ]
        refine ⟨bot_le, bot_le, WithBot.coe_le_coe.mpr ?_⟩
        have := Int.natCast_nonneg j
        simp only [gapOpen, gapExtend]
        omega
    | succ i =>
      cases j with
      | zero =>
        rw [dp_succ_zero]
        refine ⟨bot_le, WithBot.coe_le_coe.mpr ?_, bot_le⟩
        have := Int.natCast_nonneg i
        simp only [gapOpen, gapExtend]
        omega
      | succ j =>
        rw [dp_succ_succ]
        obtain ⟨d1, d2, d3⟩ := ih i j (by omega)
        obtain ⟨u1, u2, _⟩ := ih i (j + 1) (by omega)
        obtain ⟨l1, _, l3⟩ := ih (i + 1) j (by omega)
        have hcast : ((i + 1 : Nat) : Int) = (i : Int) + 1 := by push_cast; ring
        have hcast' : ((j + 1 : Nat) : Int) = (j : Int) + 1 := by push_cast; ring
        refine ⟨?_, ?_, ?_⟩
        · have hmax : max (max (dp x y m i j).1 (dp x y m i j).2.1) (dp x y m i j).2.2 ≤
              ((min (i : Int) (j : Int) : Int) : WithBot Int) := max_le (max_le d1 d2) d3
          have := wb_add_le (g := m (x.getD i 0) (y.getD j 0))
            (c := min ((i : Nat) + 1 : Nat) ((j : Nat) + 1 : Nat)) hmax ?_
          · exact this
          · have h1 := hm (x.getD i 0) (y.getD j 0)
            rw [hcast, hcast']
            omega
        · apply max_le
          · refine wb_add_le u1 ?_
            rw [hcast, hcast', gapOpen]
            omega
          · refine wb_add_le u2 ?_
            rw [hcast, hcast', gapExtend]
            omega
        · apply max_le
          · refine wb_add_le l1 ?_
            rw [hcast, hcast', gapOpen]
            omega
          · refine wb_add_le l3 ?_
            rw [hcast, hcast', gapExtend]
            omega

/-- Along the diagonal of a self-alignment the match state is at least `i`. -/
theorem dp_diag_ge (s : List Nat) :
    ∀ i : Nat, ((i : Int) : WithBot Int) ≤ (dp s s idMatcher i i).1 := by
  intro i
  induction i with
  | zero => rw [dp_zero_zero]; exact le_of_eq (by norm_num)
  | succ i ih =>
    rw [dp_succ_succ]
    have hsc : idMatcher (s.getD i 0) (s.getD i 0) = 1 := by simp [idMatcher]
    have hmax : ((i : Int) : WithBot Int) ≤
        max (max (dp s s idMatcher i i).1 (dp s s idMatcher i i).2.1) (dp s s idMatcher i i).2.2 :=
      ih.trans ((le_max_left _ _).trans (le_max_left _ _))
    have : ((i : Int) : WithBot Int) + ((1 : Int) : WithBot Int) ≤
        max (max (dp s s idMatcher i i).1 (dp s s idMatcher i i).2.1) (dp s s idMatcher i i).2.2 +
          ((1 : Int) : WithBot Int) := add_le_add_right hmax _
    rw [hsc]
    refine le_trans (le_of_eq ?_) this
    rw [← WithBot.coe_add]
    push_cast
    ring_nf

theorem idMatcher_le_one : ∀ a b : Nat, idMatcher a b ≤ 1 := by
  intro a b
  unfold idMatcher
  split <;> omega

/-- C2: aligning the empty sequence against a nonempty sequence `s` yields
`gap_open + gap_extend * (len(s) - 1) = -10 - (len(s) - 1)`, and aligning
two empty sequences yields `0`. -/
theorem align_empty_left (s : List Nat) (h : s ≠ []) :
    align [] s idMatcher = -10 - ((s.length : Int) - 1) ∧
    align ([] : List Nat) [] idMatcher = 0 := by
  refine ⟨?_, by decide⟩
  cases s with
  | nil => exact absurd rfl h
  | cons a t =>
    show (alignB [] (a :: t) idMatcher).unbot' 0 = _
    unfold alignB
    rw [show ([] : List Nat).length = 0 from rfl, show (a :: t).length = t.length + 1 from rfl,
      dp_zero_succ]
    unfold maxCell
    simp only [max_self]
    rw [max_eq_right bot_le, WithBot.unbot'_coe, gapOpen, gapExtend]
    push_cast
    ring

theorem align_empty_left_witness :
    ([42] : List Nat) ≠ [] ∧
    (align [] [42] idMatcher = -10 - ((([42] : List Nat).length : Int) - 1) ∧
      align ([] : List Nat) [] idMatcher = 0) :=
  ⟨by decide, align_empty_left [42] (by decide)⟩

/-- C6: aligning a nonempty sequence against itself under identity scoring
yields exactly its length. -/
theorem align_self (s : List Nat) (h : s ≠ []) :
    align s s idMatcher = (s.length : Int) := by
  obtain ⟨m1, m2, m3⟩ :=
    dp_le s s idMatcher idMatcher_le_one (s.length + s.length) s.length s.length le_rfl
  rw [min_self] at m1 m2 m3
  have upper : maxCell (dp s s idMatcher s.length s.length) ≤ ((s.length : Int) : WithBot Int) :=
    max_le (max_le m1 m2) m3
  have lower : ((s.length : Int) : WithBot Int) ≤ maxCell (dp s s idMatcher s.length s.length) :=
    (dp_diag_ge s s.length).trans ((le_max_left _ _).trans (le_max_left _ _))
  have heq : alignB s s idMatcher = ((s.length : Int) : WithBot Int) :=
    le_antisymm upper lower
  rw [align, heq, WithBot.unbot'_coe]

theorem align_self_witness :
    ([1, 2] : List Nat) ≠ [] ∧
    align [1, 2] [1, 2] idMatcher = ((([1, 2] : List Nat).length : Int)) :=
  ⟨by decide, align_self [1, 2] (by decide)⟩

theorem countKmerMatches_comm (a b : List Nat) (k : Nat) :
    countKmerMatches a b k = countKmerMatches b a k := by
  unfold countKmerMatches
  rw [Finset.sum_comm]
  refine Finset.sum_congr rfl fun j _ => Finset.sum_congr rfl fun i _ => ?_
  simp only [eq_comm]

theorem countKmerMatches_zero (q s : List Nat) :
    countKmerMatches q s 0 = (q.length + 1) * (s.length + 1) := by
  simp [countKmerMatches]

/-- C3: `worth_aligning` decides exactly whether the count of exact k-mer
matches between the shorter and the longer sequence, with
`k = floor(len(shorter) * fraction)`, reaches `min_matches`; with
`min_matches = 0` it is always true. -/
theorem worth_aligning_iff (seq1 seq2 : List Nat) (fraction : ℚ) (min_matches : Nat) :
    (worth_aligning seq1 seq2 fraction min_matches = true ↔
      min_matches ≤ countKmerMatches
        (if seq1.length ≤ seq2.length then seq1 else seq2)
        (if seq1.length ≤ seq2.length then seq2 else seq1)
        (⌊((if seq1.length ≤ seq2.length then seq1 else seq2).length : ℚ) * fraction⌋).toNat) ∧
    worth_aligning seq1 seq2 fraction 0 = true := by
  constructor
  · unfold worth_aligning
    rcases lt_trichotomy seq1.length seq2.length with h | h | h
    · rw [if_pos h, if_pos h.le, if_pos h.le]
      dsimp only
      exact decide_eq_true_iff
    · rw [if_neg (not_lt.mpr h.ge), if_pos h.le, if_pos h.le]
      dsimp only
      rw [countKmerMatches_comm seq2 seq1, h]
      exact decide_eq_true_iff
    · have hle : ¬seq1.length ≤ seq2.length := not_le.mpr h
      rw [if_neg (not_lt.mpr h.le), if_neg hle, if_neg hle]
      dsimp only
      exact decide_eq_true_iff
  · unfold worth_aligning
    dsimp only
    exact decide_eq_true (Nat.zero_le _)

/-- C9: `worth_aligning` is symmetric in its two sequence arguments. -/
theorem worth_aligning_comm (seq1 seq2 : List Nat) (fraction : ℚ) (min_matches : Nat) :
    worth_aligning seq1 seq2 fraction min_matches =
      worth_aligning seq2 seq1 fraction min_matches := by
  unfold worth_aligning
  rcases lt_trichotomy seq1.length seq2.length with h | h | h
  · rw [if_pos h, if_neg (not_lt.mpr h.le)]
  · rw [if_neg (not_lt.mpr h.ge), if_neg (not_lt.mpr h.le)]
    dsimp only
    rw [countKmerMatches_comm seq2 seq1, h]
  · rw [if_neg (not_lt.mpr h.le), if_pos h]

/-- C4: when the computed k-mer window length is zero (for any sequences,
in particular nonempty ones), `worth_aligning` is still a defined, total
boolean computation: every position pair trivially matches, so it decides
whether `min_matches` is at most `(len(seq1)+1) * (len(seq2)+1)`. -/
theorem worth_aligning_k_zero (seq1 seq2 : List Nat) (fraction : ℚ) (min_matches : Nat)
    (h1 : seq1 ≠ []) (h2 : seq2 ≠ [])
    (hk : (⌊((min seq1.length seq2.length : Nat) : ℚ) * fraction⌋).toNat = 0) :
    worth_aligning seq1 seq2 fraction min_matches =
      decide (min_matches ≤ (seq1.length + 1) * (seq2.length + 1)) := by
  unfold worth_aligning
  by_cases h : seq1.length < seq2.length
  · rw [if_pos h]
    dsimp only
    rw [min_eq_left h.le] at hk
    rw [hk, countKmerMatches_zero]
  · rw [if_neg h]
    dsimp only
    rw [min_eq_right (le_of_not_lt h)] at hk
    rw [hk, countKmerMatches_zero, Nat.mul_comm]

theorem worth_aligning_k_zero_witness :
    ([1, 2] : List Nat) ≠ [] ∧ ([3] : List Nat) ≠ [] ∧
    (⌊((min ([1, 2] : List Nat).length ([3] : List Nat).length : Nat) : ℚ) * (1 / 2)⌋).toNat
      = 0 ∧
    worth_aligning [1, 2] [3] (1 / 2) 5 =
      decide (5 ≤ (([1, 2] : List Nat).length + 1) * (([3] : List Nat).length + 1)) :=
  ⟨by decide, by decide, by norm_num,
    worth_aligning_k_zero [1, 2] [3] (1 / 2) 5 (by decide) (by decide) (by norm_num)⟩

theorem flatMap_cons_perm {α β : Type} (l : List α) (f : α → β) (g : α → List β) :
    (l.flatMap fun x => f x :: g x).Perm (l.map f ++ l.flatMap g) := by
  induction l with
  | nil => simp
  | cons x xs ih =>
    have step1 : (f x :: g x) ++ xs.flatMap (fun x => f x :: g x) =
        f x :: (g x ++ xs.flatMap fun x => f x :: g x) := rfl
    have step2 : (g x ++ xs.flatMap fun x => f x :: g x).Perm
        (g x ++ (xs.map f ++ xs.flatMap g)) := ih.append_left _
    have step3 : (g x ++ (xs.map f ++ xs.flatMap g)).Perm
        (xs.map f ++ (g x ++ xs.flatMap g)) := by
      rw [← List.append_assoc, ← List.append_assoc]
      exact List.perm_append_comm.append_right _
    have goal1 : ((x :: xs).flatMap fun x => f x :: g x).Perm
        (f x :: (xs.map f ++ (g x ++ xs.flatMap g))) := by
      rw [List.flatMap_cons, step1]
      exact (step2.trans step3).cons _
    have : (x :: xs).map f ++ (x :: xs).flatMap g =
        f x :: (xs.map f ++ (g x ++ xs.flatMap g)) := by
      simp
    rw [this]
    exact goal1

theorem map_getD_range (d : String) :
    ∀ l : List String, (List.range l.length).map (fun i => l.getD i d) = l := by
  intro l
  induction l with
  | nil => simp
  | cons x xs ih =>
    rw [List.length_cons, List.range_succ_eq_map, List.map_cons, List.map_map]
    rw [List.getD_cons_zero]
    have hfun : ((fun i => (x :: xs).getD i d) ∘ Nat.succ) = fun i => xs.getD i d := by
      funext i
      simp
    rw [hfun, ih]

theorem pairsOf_perm_triPairs : ∀ keys : List String, (pairsOf keys).Perm (triPairs keys) := by
  intro keys
  induction keys with
  | nil => simp [pairsOf, triPairs]
  | cons k ks ih =>
    unfold pairsOf triPairs
    rw [List.length_cons, List.range_succ_eq_map, List.flatMap_cons, List.flatMap_map]
    have hrow0 : ((k :: ks).take (0 + 1)).map (fun s => ((k :: ks).getD 0 "", s)) = [(k, k)] := by
      simp
    rw [hrow0]
    have hrows : (fun i => ((k :: ks).take (Nat.succ i + 1)).map
          fun s => ((k :: ks).getD (Nat.succ i) "", s)) =
        fun i => (ks.getD i "", k) :: ((ks.take (i + 1)).map fun s => (ks.getD i "", s)) := by
      funext i
      simp
    rw [hrows]
    have hperm := flatMap_cons_perm (List.range ks.length)
      (fun i => (ks.getD i "", k))
      (fun i => (ks.take (i + 1)).map fun s => (ks.getD i "", s))
    have hmap : (List.range ks.length).map (fun i => (ks.getD i "", k)) =
        ks.map fun q => (q, k) := by
      rw [show (fun i => (ks.getD i "", k)) = (fun q => (q, k)) ∘ (fun i => ks.getD i "")
        from rfl, ← List.map_map, map_getD_range]
    rw [hmap] at hperm
    refine (hperm.cons (k, k)).trans ?_
    rw [List.cons_append]
    exact ((ih.append_left _).cons _)

theorem mem_triPairs {p : String × String} :
    ∀ {l : List String}, p ∈ triPairs l → p.1 ∈ l ∧ p.2 ∈ l := by
  intro l
  induction l with
  | nil => intro h; simp [triPairs] at h
  | cons k ks ih =>
    intro h
    rw [triPairs, List.mem_append, List.mem_cons] at h
    rcases h with (h | h) | h
    · subst h
      exact ⟨List.mem_cons_self k ks, List.mem_cons_self k ks⟩
    · obtain ⟨q, hq, rfl⟩ := List.mem_map.mp h
      exact ⟨List.mem_cons_of_mem k hq, List.mem_cons_self k ks⟩
    · obtain ⟨h1, h2⟩ := ih h
      exact ⟨List.mem_cons_of_mem k h1, List.mem_cons_of_mem k h2⟩

theorem self_mem_triPairs {k : String} :
    ∀ {l : List String}, k ∈ l → (k, k) ∈ triPairs l := by
  intro l
  induction l with
  | nil => intro h; simp at h
  | cons x xs ih =>
    intro h
    rw [triPairs]
    rcases List.mem_cons.mp h with rfl | h
    · exact List.mem_append_left _ (List.mem_cons_self _ _)
    · exact List.mem_append_right _ (ih h)

theorem countP_mem_nodup {α : Type} [DecidableEq α] (b : α) :
    ∀ t : List α, t.Nodup → t.countP (fun q => decide (q = b)) = if b ∈ t then 1 else 0 := by
  intro t
  induction t with
  | nil => simp
  | cons x xs ih =>
    intro hnd
    obtain ⟨hx, hxs⟩ := List.nodup_cons.mp hnd
    by_cases hxb : x = b
    · subst hxb
      rw [List.countP_cons_of_pos _ _ (by simp), ih hxs, if_neg hx, if_pos (List.mem_cons_self _ _)]
    · rw [List.countP_cons_of_neg _ _ (by simp [hxb]), ih hxs]
      by_cases hbt : b ∈ xs
      · rw [if_pos hbt, if_pos (List.mem_cons_of_mem x hbt)]
      · rw [if_neg hbt,
          if_neg (fun h => (List.mem_cons.mp h).elim (fun he => hxb he.symm) hbt)]

theorem countP_triPairs (a b : String) (hab : a ≠ b) :
    ∀ ks : List String, ks.Nodup →
      (triPairs ks).countP (fun p => decide (p = (a, b)) || decide (p = (b, a))) =
        if a ∈ ks ∧ b ∈ ks then 1 else 0 := by
  intro ks
  induction ks with
  | nil => simp [triPairs]
  | cons k t ih =>
    intro hnd
    obtain ⟨hk, ht⟩ := List.nodup_cons.mp hnd
    have hhead : ¬((decide ((k, k) = (a, b)) || decide ((k, k) = (b, a))) = true) := by
      simp only [Bool.or_eq_true, decide_eq_true_eq, Prod.mk.injEq, not_or]
      exact ⟨fun h => hab (h.1.symm.trans h.2), fun h => hab (h.2.symm.trans h.1)⟩
    rw [triPairs, List.countP_append,
      List.countP_cons_of_neg (fun p => decide (p = (a, b)) || decide (p = (b, a))) _ hhead,
      List.countP_map, ih ht]
    by_cases hka : k = a
    · subst hka
      have hpred : ∀ q ∈ t, (((fun p => decide (p = (k, b)) || decide (p = (b, k))) ∘
          fun q => (q, k)) q = true) ↔ ((fun q => decide (q = b)) q = true) := by
        intro q _
        simp only [Function.comp_apply, Bool.or_eq_true, decide_eq_true_eq, Prod.mk.injEq]
        constructor
        · rintro (⟨_, h2⟩ | ⟨h1, _⟩)
          · exact absurd h2 hab
          · exact h1
        · intro h
          exact Or.inr ⟨h, trivial⟩
      rw [List.countP_congr hpred, countP_mem_nodup b t ht]
      rw [if_neg (fun h : k ∈ t ∧ b ∈ t => hk h.1)]
      by_cases hbt : b ∈ t
      · rw [if_pos hbt,
          if_pos ⟨List.mem_cons_self _ _, List.mem_cons_of_mem _ hbt⟩, Nat.add_zero]
      · rw [if_neg hbt, Nat.add_zero,
          if_neg (fun h : k ∈ k :: t ∧ b ∈ k :: t =>
            (List.mem_cons.mp h.2).elim (fun he => hab he.symm) hbt)]
    · by_cases hkb : k = b
      · subst hkb
        have hpred : ∀ q ∈ t, (((fun p => decide (p = (a, k)) || decide (p = (k, a))) ∘
            fun q => (q, k)) q = true) ↔ ((fun q => decide (q = a)) q = true) := by
          intro q _
          simp only [Function.comp_apply, Bool.or_eq_true, decide_eq_true_eq, Prod.mk.injEq]
          constructor
          · rintro (⟨h1, _⟩ | ⟨_, h2⟩)
            · exact h1
            · exact absurd h2 hka
          · intro h
            exact Or.inl ⟨h, trivial⟩
        rw [List.countP_congr hpred, countP_mem_nodup a t ht]
        rw [if_neg (fun h : a ∈ t ∧ k ∈ t => hk h.2)]
        by_cases hat : a ∈ t
        · rw [if_pos hat,
            if_pos ⟨List.mem_cons_of_mem _ hat, List.mem_cons_self _ _⟩, Nat.add_zero]
        · rw [if_neg hat, Nat.add_zero,
            if_neg (fun h : a ∈ k :: t ∧ k ∈ k :: t =>
              (List.mem_cons.mp h.1).elim (fun he => hka he.symm) hat)]
      · have hpred : ∀ q ∈ t, (((fun p => decide (p = (a, b)) || decide (p = (b, a))) ∘
            fun q => (q, k)) q = true) ↔ ((fun _ => false) q = true) := by
          intro q _
          simp only [Function.comp_apply, Bool.or_eq_true, decide_eq_true_eq, Prod.mk.injEq]
          constructor
          · rintro (⟨_, h2⟩ | ⟨_, h2⟩)
            · exact absurd h2 hkb
            · exact absurd h2 hka
          · intro h
            exact absurd h (by simp)
        rw [List.countP_congr hpred]
        simp only [List.countP_false, Function.const_apply, Nat.zero_add]
        have hmem : (a ∈ k :: t ∧ b ∈ k :: t) ↔ (a ∈ t ∧ b ∈ t) := by
          constructor
          · rintro ⟨h1, h2⟩
            exact ⟨(List.mem_cons.mp h1).elim (fun he => absurd he.symm hka) id,
              (List.mem_cons.mp h2).elim (fun he => absurd he.symm hkb) id⟩
          · rintro ⟨h1, h2⟩
            exact ⟨List.mem_cons_of_mem _ h1, List.mem_cons_of_mem _ h2⟩
        by_cases hm : a ∈ t ∧ b ∈ t
        · rw [if_pos hm, if_pos (hmem.mpr hm)]
        · rw [if_neg hm, if_neg (fun h => hm (hmem.mp h))]

theorem map_ids_filterMap (input : List (String × List Nat)) (matcher : Nat → Nat → Int)
    (fraction : Option ℚ) (min_matches : Nat) :
    ∀ l : List (String × String),
      ((l.filterMap (processPair input matcher fraction min_matches)).map
        fun r => (r.query_id, r.subject_id)) = l.filter fun p => decide ¬(p.1 = p.2) := by
  intro l
  induction l with
  | nil => rfl
  | cons p t ih =>
    by_cases h : p.1 = p.2 <;>
      simp [List.filterMap_cons, List.filter_cons, processPair, h, ih]

/-- C1: with distinct keys, the (query, subject) identifier pairs carried by
the emitted results cover each unordered pair of distinct keys exactly once,
for every thread count; emitted results never pair a key with itself, and
their identifiers are keys of the map; self-pairs are nonetheless present in
the enumeration. -/
theorem align_all_streaming_pair_coverage (input : List (String × List Nat))
    (matcher : Nat → Nat → Int) (fraction : Option ℚ) (min_matches : Nat)
    (num_threads : Option Nat) (hnd : (input.map Prod.fst).Nodup) :
    (∀ a b : String, a ≠ b → a ∈ input.map Prod.fst → b ∈ input.map Prod.fst →
      (((align_all_streaming input matcher fraction min_matches num_threads).map
          fun r => (r.query_id, r.subject_id)).countP
        fun p => decide (p = (a, b)) || decide (p = (b, a))) = 1) ∧
    (∀ r ∈ align_all_streaming input matcher fraction min_matches num_threads,
      r.query_id ≠ r.subject_id ∧ r.query_id ∈ input.map Prod.fst ∧
        r.subject_id ∈ input.map Prod.fst) ∧
    (∀ k ∈ input.map Prod.fst, (k, k) ∈ pairsOf (input.map Prod.fst)) := by
  refine ⟨?_, ?_, ?_⟩
  · intro a b hab ha hb
    rw [align_all_streaming, map_ids_filterMap, List.countP_filter]
    have hpq : ∀ x ∈ pairsOf (input.map Prod.fst),
        (((fun p => decide (p = (a, b)) || decide (p = (b, a))) x &&
          decide ¬(x.1 = x.2)) = true) ↔
        ((fun p => decide (p = (a, b)) || decide (p = (b, a))) x = true) := by
      intro x _
      simp only [Bool.and_eq_true, Bool.or_eq_true, decide_eq_true_eq]
      constructor
      · exact And.left
      · intro h
        refine ⟨h, ?_⟩
        rcases h with rfl | rfl
        · exact hab
        · exact fun he => hab he.symm
    rw [List.countP_congr hpq,
      (pairsOf_perm_triPairs (input.map Prod.fst)).countP_eq,
      countP_triPairs a b hab (input.map Prod.fst) hnd, if_pos ⟨ha, hb⟩]
  · intro r hr
    rw [align_all_streaming, List.mem_filterMap] at hr
    obtain ⟨p, hp, hsome⟩ := hr
    have hmemp := mem_triPairs
      ((pairsOf_perm_triPairs (input.map Prod.fst)).mem_iff.mp hp)
    by_cases h : p.1 = p.2
    · simp [processPair, h] at hsome
    · simp only [processPair, if_neg h] at hsome
      have hr' := Option.some.inj hsome
      subst hr'
      exact ⟨h, hmemp.1, hmemp.2⟩
  · intro k hk
    exact (pairsOf_perm_triPairs (input.map Prod.fst)).mem_iff.mpr (self_mem_triPairs hk)

theorem align_all_streaming_pair_coverage_witness :
    ((([("A", [0]), ("B", [1])] : List (String × List Nat)).map Prod.fst).Nodup) ∧
    (((align_all_streaming [("A", [0]), ("B", [1])] idMatcher none 0 none).map
        fun r => (r.query_id, r.subject_id)).countP
      fun p => decide (p = ("A", "B")) || decide (p = ("B", "A"))) = 1 :=
  ⟨by decide,
    (align_all_streaming_pair_coverage [("A", [0]), ("B", [1])] idMatcher none 0 none
      (by decide)).1 "A" "B" (by decide) (by decide) (by decide)⟩

/-- C5: a result's score is `none` exactly when the configured prefilter
rejected the pair (impossible when no fraction is configured), and the two
recorded lengths are the true lengths of the looked-up sequences whether or
not alignment ran. -/
theorem align_all_streaming_result_invariants (input : List (String × List Nat))
    (matcher : Nat → Nat → Int) (fraction : Option ℚ) (min_matches : Nat)
    (num_threads : Option Nat) (r : AlignmentResult)
    (hr : r ∈ align_all_streaming input matcher fraction min_matches num_threads) :
    (r.score = none ↔ ∃ f, fraction = some f ∧
      worth_aligning (seqOf input r.query_id) (seqOf input r.subject_id) f
        min_matches = false) ∧
    (fraction = none → r.score ≠ none) ∧
    r.seq1_len = (seqOf input r.query_id).length ∧
    r.seq2_len = (seqOf input r.subject_id).length := by
  rw [align_all_streaming, List.mem_filterMap] at hr
  obtain ⟨p, _, hsome⟩ := hr
  by_cases h : p.1 = p.2
  · simp [processPair, h] at hsome
  · simp only [processPair, if_neg h] at hsome
    have hr' := Option.some.inj hsome
    subst hr'
    cases fraction with
    | none => exact ⟨by simp, by simp, rfl, rfl⟩
    | some f =>
      by_cases hw : worth_aligning (seqOf input p.1) (seqOf input p.2) f min_matches = true
      · exact ⟨by simp [hw], by simp, rfl, rfl⟩
      · have hw' : worth_aligning (seqOf input p.1) (seqOf input p.2) f min_matches = false :=
          Bool.not_eq_true _ ▸ hw
        exact ⟨by simp [hw'], by simp, rfl, rfl⟩

theorem align_all_streaming_result_invariants_witness :
    (⟨"B", "A", some (-1), 1, 1⟩ : AlignmentResult) ∈
      align_all_streaming [("A", [0]), ("B", [1])] idMatcher none 0 none ∧
    (⟨"B", "A", some (-1), 1, 1⟩ : AlignmentResult).seq1_len =
      (seqOf [("A", [0]), ("B", [1])]
        (⟨"B", "A", some (-1), 1, 1⟩ : AlignmentResult).query_id).length :=
  ⟨by decide,
    (align_all_streaming_result_invariants [("A", [0]), ("B", [1])] idMatcher none 0 none
      ⟨"B", "A", some (-1), 1, 1⟩ (by decide)).2.2.1⟩

/-- C7: every result is rendered as the five tab-separated fields
`query_id, subject_id, score, seq1_len, seq2_len`, a skipped (`none`)
score being printed as the sentinel `-1`. -/
theorem renderResult_fields (r : AlignmentResult) :
    renderResult r = r.query_id ++ "\t" ++ r.subject_id ++ "\t" ++
      (match r.score with
      | some v => toString v
      | none => "-1") ++ "\t" ++ toString r.seq1_len ++ "\t" ++ toString r.seq2_len := by
  cases h : r.score with
  | none =>
    simp only [renderResult, h, Option.getD_none]
    rfl
  | some v =>
    simp only [renderResult, h, Option.getD_some]

/-- C10: the textual encoding is not injective on results: a run that
genuinely returned the alignment score `-1` prints the same line as a
prefilter-skipped result, though the two results differ. -/
theorem renderResult_not_injective :
    align [0] [1] idMatcher = -1 ∧
    renderResult ⟨"A", "B", some (align [0] [1] idMatcher), 1, 1⟩ =
      renderResult ⟨"A", "B", none, 1, 1⟩ ∧
    (⟨"A", "B", some (align [0] [1] idMatcher), 1, 1⟩ : AlignmentResult) ≠
      ⟨"A", "B", none, 1, 1⟩ :=
  ⟨by decide, by decide, by decide⟩

theorem deliverAll_abort (send : AlignmentResult → Option Unit) :
    ∀ rs : List AlignmentResult, (∃ r ∈ rs, send r = none) →
      deliverAll send rs = none := by
  intro rs
  induction rs with
  | nil =>
    rintro ⟨r, hr, _⟩
    exact absurd hr (List.not_mem_nil r)
  | cons x t ih =>
    rintro ⟨r, hr, hsend⟩
    cases hsx : send x with
    | none => simp [deliverAll, hsx]
    | some u =>
      rcases List.mem_cons.mp hr with rfl | hrt
      · rw [hsend] at hsx
        cases hsx
      · simp only [deliverAll, hsx]
        exact ih ⟨r, hrt, hsend⟩

/-- C8: if the channel handoff fails for any produced result, the whole
delivery run aborts instead of treating it as a per-pair error. -/
theorem align_all_streaming_delivery_fatal (input : List (String × List Nat))
    (matcher : Nat → Nat → Int) (fraction : Option ℚ) (min_matches : Nat)
    (num_threads : Option Nat) (send : AlignmentResult → Option Unit)
    (h : ∃ r ∈ align_all_streaming input matcher fraction min_matches num_threads,
      send r = none) :
    deliverAll send (align_all_streaming input matcher fraction min_matches num_threads) =
      none :=
  deliverAll_abort send _ h

theorem align_all_streaming_delivery_fatal_witness :
    (∃ r ∈ align_all_streaming [("A", [0]), ("B", [1])] idMatcher none 0 none,
      (fun _ : AlignmentResult => (none : Option Unit)) r = none) ∧
    deliverAll (fun _ : AlignmentResult => (none : Option Unit))
      (align_all_streaming [("A", [0]), ("B", [1])] idMatcher none 0 none) = none :=
  ⟨by decide,
    align_all_streaming_delivery_fatal [("A", [0]), ("B", [1])] idMatcher none 0 none
      (fun _ => none) (by decide)⟩

end Aligner
